import Mathlib

/-!
Verification of the Research-HUB front-end script (`script.js`).

Shallow embedding of:
* the graph normalizer `convertToHierarchy` (nodes/edges → D3 hierarchy),
* the summary formatter `formatSummaries` and its regular expressions,
* the collapsible-tree state machine (`collapse`, the click handler of
  `update`) of the mindmap renderer,
* the control flow of `renderMindmap` (absent input, JSON parse failure),
* the node-identity assignment of the D3 data join in `update`,
* the client-side filter/sort pipeline of `loadPapers`.

Machine strings are Lean `String`s; JavaScript array mutation is replaced by
pure list construction; the finite object graph `nodesById` is observed
through a fuel-bounded unfolding that is exact on the acyclic inputs.
-/

set_option autoImplicit false

namespace ResearchHub

/-- A mindmap graph node `{id, label}` (an entry of `graph.nodes`). -/
structure GNode where
  id : String
  label : String
deriving DecidableEq, Repr

/-- A mindmap graph edge. The JavaScript fields are `from`/`to`; `from` is a
Lean keyword, so the fields are embedded as `efrom`/`eto`. -/
structure GEdge where
  efrom : String
  eto : String
deriving DecidableEq, Repr

/-- The argument of `convertToHierarchy`: `{nodes, edges}`. -/
structure Graph where
  nodes : List GNode
  edges : List GEdge
deriving DecidableEq, Repr

/-- Truthiness of `nodesById[x]`: the lookup yields an object (always truthy)
exactly when some declared node has id `x`, since `graph.nodes.forEach` puts
every declared id into the map. -/
def hasNode (g : Graph) (x : String) : Bool :=
  g.nodes.any (fun n => n.id == x)

/-- The `name` field of `nodesById[x]`. Each `nodesById[n.id] = ...` assignment
overwrites any earlier one, so with duplicate ids the label of the last
declared node with id `x` wins; `""` models the never-read missing case. -/
def labelOf (g : Graph) (x : String) : String :=
  match (g.nodes.filter (fun n => n.id == x)).getLast? with
  | some n => n.label
  | none => ""

/-- The ids pushed onto `nodesById[x].children`, in edge order: targets of the
edges both of whose endpoints are declared ids and whose source is `x`
(`if (nodesById[e.from] && nodesById[e.to]) nodesById[e.from].children.push`). -/
def childIds (g : Graph) (x : String) : List String :=
  (g.edges.filter
      (fun e => hasNode g e.efrom && hasNode g e.eto && e.efrom == x)).map
    GEdge.eto

/-- `const targets = new Set(graph.edges.map(e => e.to))` — note: built from
all edges, malformed ones included. Membership in the model list is exactly
membership in the set. -/
def targets (g : Graph) : List String :=
  g.edges.map GEdge.eto

/-- The predicate of the `find` call: `n => !targets.has(n.id)`. -/
def notTarget (g : Graph) (n : GNode) : Bool :=
  !((targets g).contains n.id)

/-- `graph.nodes.find(n => !targets.has(n.id)) || graph.nodes[0]`.
`none` models the `undefined` obtained on an empty node list. -/
def rootNode? (g : Graph) : Option GNode :=
  match g.nodes.find? (notTarget g) with
  | some n => some n
  | none => g.nodes.head?

/-- A D3 hierarchy datum `{name, children}`, as built by the normalizer. -/
inductive HNode where
  | mk (name : String) (children : List HNode)
deriving Repr

/-- The `name` field of a hierarchy datum. -/
def HNode.name : HNode → String
  | .mk n _ => n

/-- The `children` field of a hierarchy datum. -/
def HNode.children : HNode → List HNode
  | .mk _ c => c

/-- Unfolding of the object graph `nodesById` from id `x`. The JavaScript
return value `nodesById[rootNode.id]` is a reference into a finite object
graph; on inputs whose part reachable from the root is acyclic the reference
denotes exactly this unfolding, and `fuel = graph.nodes.length` expansions
suffice there because an acyclic id chain never repeats an id. -/
def build (g : Graph) : Nat → String → HNode
  | 0, x => .mk (labelOf g x) []
  | fuel + 1, x => .mk (labelOf g x) ((childIds g x).map (build g fuel))

/-- `convertToHierarchy`: `return nodesById[rootNode.id]`, observed through
`build`; `none` models the `TypeError` thrown by `rootNode.id` when
`rootNode` is `undefined` (empty node list). -/
def convertToHierarchy (g : Graph) : Option HNode :=
  (rootNode? g).map (fun r => build g g.nodes.length r.id)

/-- The same graph with the malformed edges (an endpoint id that no declared
node carries) dropped. -/
def wellFormed (g : Graph) : Graph :=
  ⟨g.nodes, g.edges.filter (fun e => hasNode g e.efrom && hasNode g e.eto)⟩

theorem notTarget_true_iff (g : Graph) (n : GNode) :
    notTarget g n = true ↔ n.id ∉ targets g := by
  simp [notTarget]

theorem notTarget_false_iff (g : Graph) (n : GNode) :
    notTarget g n = false ↔ n.id ∈ targets g := by
  simp [notTarget]

theorem convertToHierarchy_isSome (g : Graph) (hne : g.nodes ≠ []) :
    (convertToHierarchy g).isSome := by
  cases hf : g.nodes.find? (notTarget g) with
  | some n => simp [convertToHierarchy, rootNode?, hf]
  | none =>
    cases hn : g.nodes with
    | nil => exact absurd hn hne
    | cons m ms =>
      rw [hn] at hf
      simp [convertToHierarchy, rootNode?, hf, hn]

theorem convertToHierarchy_none (g : Graph) (hne : g.nodes = []) :
    convertToHierarchy g = none := by
  simp [convertToHierarchy, rootNode?, hne]

/-- Claim C1: root selection of `convertToHierarchy`: for a non-empty node list the
result is the tree rooted at the first declared node whose id is the target
of no edge; when every declared node is some edge's target, the tree rooted
at the first declared node. -/
theorem claim_C1 (g : Graph) (hne : g.nodes ≠ []) :
    ∃ r : GNode,
      convertToHierarchy g = some (build g g.nodes.length r.id) ∧
      ((∃ k : Nat, ∃ hk : k < g.nodes.length,
          r = g.nodes.get ⟨k, hk⟩ ∧ r.id ∉ targets g ∧
          ∀ j : Nat, (hj : j < k) →
            (g.nodes.get ⟨j, Nat.lt_trans hj hk⟩).id ∈ targets g) ∨
        ((∀ n ∈ g.nodes, n.id ∈ targets g) ∧ g.nodes.head? = some r)) := by
  cases hf : g.nodes.find? (notTarget g) with
  | some r =>
    refine ⟨r, by simp [convertToHierarchy, rootNode?, hf], Or.inl ?_⟩
    rw [List.find?_eq_some_iff_getElem] at hf
    obtain ⟨hpr, k, hk, hget, hbefore⟩ := hf
    refine ⟨k, hk, ?_, (notTarget_true_iff g r).mp hpr, ?_⟩
    · simp [← hget]
    · intro j hj
      have hb := hbefore j hj
      have hb' : notTarget g (g.nodes.get ⟨j, Nat.lt_trans hj hk⟩) = false := by
        simpa using hb
      exact (notTarget_false_iff g _).mp hb'
  | none =>
    have hall := List.find?_eq_none.mp hf
    cases hn : g.nodes with
    | nil => exact absurd hn hne
    | cons m ms =>
      rw [hn] at hf hall
      refine ⟨m, by simp [convertToHierarchy, rootNode?, hf, hn], Or.inr ⟨?_, by simp⟩⟩
      intro n hmem
      have h1 := hall n hmem
      have h2 : notTarget g n = false := by
        cases h : notTarget g n
        · rfl
        · exact absurd h h1
      exact (notTarget_false_iff g n).mp h2

/-- Claim C2: single node and no edges: the hierarchy is that node with no
children; the linear chain A→B→C: the hierarchy is A with single child B
with single child C with no children. -/
theorem claim_C2 :
    (∀ n : GNode, convertToHierarchy ⟨[n], []⟩ = some (.mk n.label [])) ∧
    convertToHierarchy
        ⟨[⟨"A", "A"⟩, ⟨"B", "B"⟩, ⟨"C", "C"⟩], [⟨"A", "B"⟩, ⟨"B", "C"⟩]⟩ =
      some (.mk "A" [.mk "B" [.mk "C" []]]) := by
  constructor
  · intro n
    simp [convertToHierarchy, rootNode?, notTarget, targets, build, childIds,
      labelOf]
  · rfl

theorem hasNode_wellFormed (g : Graph) (x : String) :
    hasNode (wellFormed g) x = hasNode g x := rfl

theorem labelOf_wellFormed (g : Graph) (x : String) :
    labelOf (wellFormed g) x = labelOf g x := rfl

theorem childIds_wellFormed (g : Graph) (x : String) :
    childIds (wellFormed g) x = childIds g x := by
  unfold childIds
  have he : (wellFormed g).edges =
      g.edges.filter (fun e => hasNode g e.efrom && hasNode g e.eto) := rfl
  rw [he, List.filter_filter]
  apply congrArg
  apply List.filter_congr
  intro e _
  simp only [hasNode_wellFormed]
  cases hasNode g e.efrom <;> cases hasNode g e.eto <;> simp

theorem build_wellFormed (g : Graph) (fuel : Nat) :
    ∀ x : String, build (wellFormed g) fuel x = build g fuel x := by
  induction fuel with
  | zero => intro x; simp [build, labelOf_wellFormed]
  | succ f ih =>
    intro x
    simp [build, labelOf_wellFormed, childIds_wellFormed, ih]

/-- Graph with one malformed edge (source `"X"` undeclared) whose target id
`"A"` masks the declared node `"A"` during root selection. -/
def c7Graph : Graph := ⟨[⟨"A", "A"⟩, ⟨"B", "B"⟩], [⟨"X", "A"⟩]⟩

/-- Claim C7 counterexample: on `c7Graph` the malformed edge contributes no child
relationship, yet the output differs from the well-formed-edges-only output,
because the malformed edge's target id still participates in root selection:
with the edge kept the root is `"B"`, with it dropped the root is `"A"`. -/
theorem claim_C7_counterexample :
    (convertToHierarchy c7Graph).map HNode.name = some "B" ∧
    (convertToHierarchy (wellFormed c7Graph)).map HNode.name = some "A" ∧
    convertToHierarchy c7Graph ≠ convertToHierarchy (wellFormed c7Graph) := by
  refine ⟨rfl, rfl, ?_⟩
  intro h
  have h1 : (convertToHierarchy c7Graph).map HNode.name =
      (convertToHierarchy (wellFormed c7Graph)).map HNode.name := by rw [h]
  rw [show (convertToHierarchy c7Graph).map HNode.name = some "B" from rfl,
    show (convertToHierarchy (wellFormed c7Graph)).map HNode.name = some "A"
      from rfl] at h1
  exact absurd h1 (by decide)

/-- Claim C7, amended: A malformed edge contributes no child relationship (every
node's pushed child list equals the one computed from the well-formed edges
alone) and raises no error; but malformed edges still enter the
root-selection target set, so the output hierarchy equals the one built from
the well-formed edges alone only when both graphs select the same root. -/
theorem claim_C7_amended (g : Graph) :
    (∀ x : String, childIds g x = childIds (wellFormed g) x) ∧
    (g.nodes ≠ [] → (convertToHierarchy g).isSome) ∧
    (rootNode? g = rootNode? (wellFormed g) →
      convertToHierarchy g = convertToHierarchy (wellFormed g)) := by
  refine ⟨fun x => (childIds_wellFormed g x).symm, convertToHierarchy_isSome g, ?_⟩
  intro hroot
  unfold convertToHierarchy
  rw [hroot]
  cases rootNode? (wellFormed g) with
  | none => rfl
  | some r =>
    show some (build g g.nodes.length r.id) =
      some (build (wellFormed g) g.nodes.length r.id)
    rw [build_wellFormed]

/-- Graph whose malformed edge (`"X"`→`"B"`) leaves root selection unchanged. -/
def c7wfGraph : Graph := ⟨[⟨"A", "A"⟩, ⟨"B", "B"⟩], [⟨"A", "B"⟩, ⟨"X", "B"⟩]⟩

theorem claim_C7_witness :
    childIds c7wfGraph "A" = childIds (wellFormed c7wfGraph) "A" ∧
    (convertToHierarchy c7wfGraph).isSome ∧
    convertToHierarchy c7wfGraph = convertToHierarchy (wellFormed c7wfGraph) :=
  ⟨(claim_C7_amended c7wfGraph).1 "A",
   (claim_C7_amended c7wfGraph).2.1 (by decide),
   (claim_C7_amended c7wfGraph).2.2 (by decide)⟩

/-- A rendered tree node of the mindmap: D3 hierarchy node as the script
mutates it. `vis` is the D3 field `children` (the visible-children slot),
`hid` the script's field `_children` (the hidden slot). D3 never creates an
empty non-null `children` array and the script only moves whole lists between
the two slots, so the empty list faithfully models `null`/`undefined`. -/
inductive RNode where
  | mk (name : String) (vis : List RNode) (hid : List RNode)
deriving Repr

/-- The node's label. -/
def RNode.name : RNode → String
  | .mk n _ _ => n

/-- The visible-children slot (`d.children`). -/
def RNode.vis : RNode → List RNode
  | .mk _ v _ => v

/-- The hidden-children slot (`d._children`). -/
def RNode.hid : RNode → List RNode
  | .mk _ _ h => h

theorem RNode.name_mk (n : String) (v h : List RNode) :
    (RNode.mk n v h).name = n := rfl

theorem RNode.vis_mk (n : String) (v h : List RNode) :
    (RNode.mk n v h).vis = v := rfl

theorem RNode.hid_mk (n : String) (v h : List RNode) :
    (RNode.mk n v h).hid = h := rfl

/-- `d3.hierarchy(data)`: every hierarchy child becomes a visible child;
`_children` starts unset. -/
def fromH : HNode → RNode
  | .mk n cs => .mk n (cs.attach.map (fun c => fromH c.1)) []
decreasing_by
  cases c with
  | mk val hval =>
    have h := List.sizeOf_lt_of_mem hval
    simp
    omega

theorem fromH_def (n : String) (cs : List HNode) :
    fromH (.mk n cs) = .mk n (cs.map fromH) [] := by
  simp only [fromH]
  rw [List.map_attach, List.pmap_eq_map]

/-- `function collapse(d)` (script.js lines 179-185): if `d.children` is
non-null, move it into `d._children`, collapse each moved child, and null
out `d.children`; otherwise leave `d` unchanged. -/
def collapse : RNode → RNode
  | .mk n [] hid => .mk n [] hid
  | .mk n (c :: cs) _ => .mk n [] ((c :: cs).attach.map (fun x => collapse x.1))
decreasing_by
  cases x with
  | mk val hval =>
    have h := List.sizeOf_lt_of_mem hval
    simp only [List.cons.sizeOf_spec] at h
    simp
    omega

theorem collapse_nil (n : String) (hid : List RNode) :
    collapse (.mk n [] hid) = .mk n [] hid := by
  simp only [collapse]

theorem collapse_cons (n : String) (c : RNode) (cs hid : List RNode) :
    collapse (.mk n (c :: cs) hid) = .mk n [] ((c :: cs).map collapse) := by
  simp only [collapse]
  rw [List.map_attach, List.pmap_eq_map]

/-- The initial render state (lines 170-177): the hierarchy is converted by
`d3.hierarchy`, then `root.children?.forEach(collapse)` collapses every child
of the root in place; the root itself is not collapsed. -/
def initRender (h : HNode) : RNode :=
  .mk (fromH h).name ((fromH h).vis.map collapse) (fromH h).hid

/-- The visible node set, in preorder: a node together with the nodes
reachable through visible-children slots only — exactly the nodes
`root.descendants()` yields to the layout and the node join. -/
def visibleNames : RNode → List String
  | .mk n vis _ => n :: (vis.attach.map (fun c => visibleNames c.1)).flatten
decreasing_by
  cases c with
  | mk val hval =>
    have h := List.sizeOf_lt_of_mem hval
    simp
    omega

theorem visibleNames_def (n : String) (vis hid : List RNode) :
    visibleNames (.mk n vis hid) = n :: (vis.map visibleNames).flatten := by
  simp only [visibleNames]
  rw [List.map_attach, List.pmap_eq_map]

theorem collapse_vis (r : RNode) : (collapse r).vis = [] := by
  cases r with
  | mk n vis hid =>
    cases vis with
    | nil => rw [collapse_nil, RNode.vis_mk]
    | cons c cs => rw [collapse_cons, RNode.vis_mk]

theorem collapse_name (r : RNode) : (collapse r).name = r.name := by
  cases r with
  | mk n vis hid =>
    cases vis with
    | nil => rw [collapse_nil]
    | cons c cs => rw [collapse_cons, RNode.name_mk, RNode.name_mk]

theorem visibleNames_of_vis_nil (r : RNode) (h : r.vis = []) :
    visibleNames r = [r.name] := by
  cases r with
  | mk n vis hid =>
    rw [RNode.vis_mk] at h
    subst h
    rw [visibleNames_def]
    rfl

theorem flatten_map_singleton {α β : Type _} (f : α → β) (l : List α) :
    (l.map (fun a => [f a])).flatten = l.map f := by
  induction l with
  | nil => rfl
  | cons a t ih => simp [ih]

/-- Claim C3: after the initial render, the visible node set is exactly the root
followed by its immediate children (in order), and every visible child of
the root is in the collapsed state (empty visible slot) — so no grandchild
of the root is visible. -/
theorem claim_C3 (h : HNode) :
    visibleNames (initRender h) = h.name :: h.children.map HNode.name ∧
    ∀ c ∈ (initRender h).vis, c.vis = [] := by
  cases h with
  | mk n cs =>
    constructor
    · show visibleNames (initRender (.mk n cs)) = _
      rw [show initRender (.mk n cs) =
            .mk n ((cs.map fromH).map collapse) [] by
          rw [initRender, fromH_def]; rfl]
      rw [visibleNames_def]
      show _ = n :: cs.map HNode.name
      congr 1
      rw [List.map_map, List.map_map]
      have heach : ∀ c : HNode,
          visibleNames (collapse (fromH c)) = [c.name] := by
        intro c
        rw [visibleNames_of_vis_nil _ (collapse_vis _), collapse_name]
        cases c with
        | mk m ds => rw [fromH_def]; rfl
      calc (cs.map (visibleNames ∘ collapse ∘ fromH)).flatten
          = (cs.map (fun c => [HNode.name c])).flatten := by
            congr 1
            exact List.map_congr_left (fun c _ => heach c)
        _ = cs.map HNode.name := flatten_map_singleton _ _
    · intro c hc
      rw [show initRender (.mk n cs) =
            .mk n ((cs.map fromH).map collapse) [] by
          rw [initRender, fromH_def]; rfl, RNode.vis_mk] at hc
      obtain ⟨x, _, rfl⟩ := List.mem_map.mp hc
      exact collapse_vis x

/-- The click handler body of `update` (script.js lines 214-223):
`if (d.children) { d._children = d.children; d.children = null }
else { d.children = d._children; d._children = null }`. The `update(d)`
re-layout that follows changes no child slot. -/
def toggle : RNode → RNode
  | .mk n [] hid => .mk n hid []
  | .mk n (c :: cs) _ => .mk n [] (c :: cs)

/-- Replace the element at index `i` (out-of-range indices leave the list
unchanged). -/
def modifyIdx {α : Type _} : List α → Nat → (α → α) → List α
  | [], _, _ => []
  | x :: xs, 0, f => f x :: xs
  | x :: xs, n + 1, f => x :: modifyIdx xs n f

/-- Dispatching a click on the visible node at path `p` (a list of
visible-child indices from the root): the handler toggles that node; no
other node object is touched. -/
def clickAt : RNode → List Nat → RNode
  | d, [] => toggle d
  | .mk n vis hid, i :: p =>
    .mk n (modifyIdx vis i (fun c => clickAt c p)) hid
termination_by structural _ p => p

/-- The node reached by following visible-children indices along `p`. -/
def nodeAt? : RNode → List Nat → Option RNode
  | d, [] => some d
  | d, i :: p =>
    match d.vis[i]? with
    | some c => nodeAt? c p
    | none => none
termination_by structural _ p => p

/-- `p` addresses an existing visible node. -/
def validPathB : RNode → List Nat → Bool
  | _, [] => true
  | d, i :: p =>
    match d.vis[i]? with
    | some c => validPathB c p
    | none => false
termination_by structural _ p => p

/-- At most one child slot of every node is populated — the invariant every
reachable render state satisfies (initially `_children` is unset everywhere;
`collapse` and the click handler always empty one slot when filling the
other). -/
def oneSlotB : RNode → Bool
  | .mk _ vis hid =>
    (vis.isEmpty || hid.isEmpty) &&
      (vis ++ hid).attach.all (fun c => oneSlotB c.1)
decreasing_by
  cases c with
  | mk val hval =>
    rcases List.mem_append.mp hval with h | h
    · have hs := List.sizeOf_lt_of_mem h
      simp
      omega
    · have hs := List.sizeOf_lt_of_mem h
      simp
      omega

theorem oneSlotB_def (n : String) (vis hid : List RNode) :
    oneSlotB (.mk n vis hid) =
      ((vis.isEmpty || hid.isEmpty) && (vis ++ hid).all oneSlotB) := by
  simp only [oneSlotB]
  congr 1
  rw [Bool.eq_iff_iff]
  simp only [List.all_eq_true, List.mem_attach, true_implies, Subtype.forall]

theorem oneSlot_top (n : String) (vis hid : List RNode)
    (h : oneSlotB (.mk n vis hid) = true) :
    (vis.isEmpty || hid.isEmpty) = true := by
  rw [oneSlotB_def, Bool.and_eq_true] at h
  exact h.1

theorem oneSlot_mem_vis (n : String) (vis hid : List RNode) (c : RNode)
    (h : oneSlotB (.mk n vis hid) = true) (hc : c ∈ vis) :
    oneSlotB c = true := by
  rw [oneSlotB_def, Bool.and_eq_true] at h
  exact List.all_eq_true.mp h.2 c (List.mem_append.mpr (Or.inl hc))

theorem toggle_toggle (n : String) (vis hid : List RNode)
    (h : (vis.isEmpty || hid.isEmpty) = true) :
    toggle (toggle (.mk n vis hid)) = .mk n vis hid := by
  cases vis with
  | nil =>
    cases hid with
    | nil => rfl
    | cons c cs => rfl
  | cons c cs =>
    have hh : hid = [] := by
      simp only [List.isEmpty_cons, Bool.false_or] at h
      exact List.isEmpty_iff.mp h
    subst hh
    rfl

theorem modifyIdx_modifyIdx {α : Type _} (l : List α) (i : Nat) (f g : α → α) :
    modifyIdx (modifyIdx l i f) i g = modifyIdx l i (fun a => g (f a)) := by
  induction l generalizing i with
  | nil => rfl
  | cons x xs ih =>
    cases i with
    | zero => rfl
    | succ j => simp [modifyIdx, ih]

theorem modifyIdx_self {α : Type _} (l : List α) (i : Nat) (f : α → α) (a : α)
    (hget : l[i]? = some a) (hfix : f a = a) : modifyIdx l i f = l := by
  induction l generalizing i with
  | nil => rfl
  | cons x xs ih =>
    cases i with
    | zero =>
      simp only [List.getElem?_cons_zero, Option.some.injEq] at hget
      subst hget
      simp [modifyIdx, hfix]
    | succ j =>
      simp only [List.getElem?_cons_succ] at hget
      simp [modifyIdx, ih j hget]

theorem modifyIdx_getElem?_ne {α : Type _} (l : List α) (i j : Nat) (f : α → α)
    (h : i ≠ j) : (modifyIdx l i f)[j]? = l[j]? := by
  induction l generalizing i j with
  | nil => rfl
  | cons x xs ih =>
    cases i with
    | zero =>
      cases j with
      | zero => exact absurd rfl h
      | succ j' => simp [modifyIdx]
    | succ i' =>
      cases j with
      | zero => simp [modifyIdx]
      | succ j' =>
        simp only [modifyIdx, List.getElem?_cons_succ]
        exact ih i' j' (fun hc => h (by rw [hc]))

theorem modifyIdx_getElem?_eq {α : Type _} (l : List α) (i : Nat) (f : α → α) :
    (modifyIdx l i f)[i]? = (l[i]?).map f := by
  induction l generalizing i with
  | nil => simp [modifyIdx]
  | cons x xs ih =>
    cases i with
    | zero => simp [modifyIdx]
    | succ j => simp [modifyIdx, ih]

theorem isPre_cons {α : Type _} (a : α) (l₁ l₂ : List α) :
    (a :: l₁) <+: (a :: l₂) ↔ l₁ <+: l₂ := by
  constructor
  · rintro ⟨t, ht⟩
    exact ⟨t, by simpa using ht⟩
  · rintro ⟨t, ht⟩
    exact ⟨t, by simp [ht]⟩

theorem clickAt_clickAt (p : List Nat) : ∀ t : RNode, oneSlotB t = true →
    validPathB t p = true → clickAt (clickAt t p) p = t := by
  induction p with
  | nil =>
    intro t hinv _
    cases t with
    | mk n vis hid =>
      simp only [clickAt]
      exact toggle_toggle n vis hid (oneSlot_top n vis hid hinv)
  | cons i p ih =>
    intro t hinv hvalid
    cases t with
    | mk n vis hid =>
      cases hv : vis[i]? with
      | none =>
        rw [show validPathB (.mk n vis hid) (i :: p) = false by
          simp [validPathB, RNode.vis_mk, hv]] at hvalid
        exact absurd hvalid (by simp)
      | some c =>
        have hc2 : validPathB c p = true := by
          rw [show validPathB (.mk n vis hid) (i :: p) = validPathB c p by
            simp [validPathB, RNode.vis_mk, hv]] at hvalid
          exact hvalid
        have hcmem : c ∈ vis := by
          obtain ⟨hlt, hge⟩ := List.getElem?_eq_some_iff.mp hv
          exact hge ▸ List.getElem_mem hlt
        have hcinv : oneSlotB c = true := oneSlot_mem_vis n vis hid c hinv hcmem
        simp only [clickAt]
        rw [modifyIdx_modifyIdx]
        rw [modifyIdx_self vis i _ c hv (ih c hcinv hc2)]

theorem clickAt_nodeAt (p : List Nat) : ∀ (t : RNode) (q : List Nat),
    ¬ p <+: q → ¬ q <+: p → nodeAt? (clickAt t p) q = nodeAt? t q := by
  induction p with
  | nil =>
    intro t q h1 _
    exact absurd ⟨q, rfl⟩ h1
  | cons i p ih =>
    intro t q h1 h2
    cases q with
    | nil => exact absurd ⟨i :: p, rfl⟩ h2
    | cons j q' =>
      cases t with
      | mk n vis hid =>
        simp only [clickAt, nodeAt?, RNode.vis_mk]
        by_cases hij : i = j
        · subst hij
          have hp' : ¬ p <+: q' := fun hc => h1 ((isPre_cons i p q').mpr hc)
          have hq' : ¬ q' <+: p := fun hc => h2 ((isPre_cons i q' p).mpr hc)
          rw [modifyIdx_getElem?_eq]
          cases hv : vis[i]? with
          | none => rfl
          | some c =>
            simp only [Option.map_some]
            exact ih c q' hp' hq'
        · rw [modifyIdx_getElem?_ne vis i j _ hij]

theorem clickAt_nodeAt_self (p : List Nat) : ∀ t : RNode,
    nodeAt? (clickAt t p) p = (nodeAt? t p).map toggle := by
  induction p with
  | nil =>
    intro t
    simp only [clickAt, nodeAt?]
    rfl
  | cons i p ih =>
    intro t
    cases t with
    | mk n vis hid =>
      simp only [clickAt, nodeAt?, RNode.vis_mk]
      rw [modifyIdx_getElem?_eq]
      cases hv : vis[i]? with
      | none => rfl
      | some c =>
        simp only [Option.map_some]
        exact ih c

/-- Claim C4: clicking a visible node toggles exactly that node (expanded →
collapsed moves its visible children into the hidden slot, collapsed →
expanded restores them); a second click on the same node restores every
node's slots to their prior values; a single click changes no node off the
clicked path. -/
theorem claim_C4 (t : RNode) (p q : List Nat)
    (hinv : oneSlotB t = true) (hvalid : validPathB t p = true)
    (hdisj : ¬ p <+: q ∧ ¬ q <+: p) :
    clickAt (clickAt t p) p = t ∧
    nodeAt? (clickAt t p) p = (nodeAt? t p).map toggle ∧
    nodeAt? (clickAt t p) q = nodeAt? t q ∧
    (∀ (n : String) (c : RNode) (vs hs : List RNode),
      toggle (.mk n (c :: vs) hs) = .mk n [] (c :: vs)) ∧
    (∀ (n : String) (hs : List RNode), toggle (.mk n [] hs) = .mk n hs []) :=
  ⟨clickAt_clickAt p t hinv hvalid, clickAt_nodeAt_self p t,
   clickAt_nodeAt p t q hdisj.1 hdisj.2,
   fun _ _ _ _ => rfl, fun _ _ => rfl⟩

/-- A three-level render tree: the root shows node `a`; `a` hides `b`. -/
def c4Tree : RNode :=
  .mk "root" [.mk "a" [] [.mk "b" [] []]] []

theorem claim_C4_witness :
    oneSlotB c4Tree = true ∧ validPathB c4Tree [0] = true ∧
    (¬ [0] <+: [1] ∧ ¬ [1] <+: ([0] : List Nat)) ∧
    (clickAt (clickAt c4Tree [0]) [0] = c4Tree ∧
      nodeAt? (clickAt c4Tree [0]) [0] = (nodeAt? c4Tree [0]).map toggle ∧
      nodeAt? (clickAt c4Tree [0]) [1] = nodeAt? c4Tree [1] ∧
      (∀ (n : String) (c : RNode) (vs hs : List RNode),
        toggle (.mk n (c :: vs) hs) = .mk n [] (c :: vs)) ∧
      (∀ (n : String) (hs : List RNode), toggle (.mk n [] hs) = .mk n hs [])) :=
  ⟨by simp [c4Tree, oneSlotB_def], by decide,
   ⟨by decide, by decide⟩,
   claim_C4 c4Tree [0] [1] (by simp [c4Tree, oneSlotB_def])
     (by decide) ⟨by decide, by decide⟩⟩

/-- JavaScript regex `\s` / `trim` whitespace, restricted to the ASCII
whitespace characters (space, tab, LF, VT, FF, CR); the Unicode space
classes are never exercised by the modeled inputs. -/
def isJsWhitespace (c : Char) : Bool :=
  c == Char.ofNat 32 || c == Char.ofNat 9 || c == Char.ofNat 10 ||
    c == Char.ofNat 11 || c == Char.ofNat 12 || c == Char.ofNat 13

/-- Case-insensitive character comparison (the regex `i` flag; ASCII folding). -/
def ciEq (a b : Char) : Bool :=
  a.toLower == b.toLower

/-- `pat` matches at the start of `t`, case-insensitively. -/
def startsWithCI : List Char → List Char → Bool
  | [], _ => true
  | _ :: _, [] => false
  | p :: ps, t :: ts => ciEq p t && startsWithCI ps ts

/-- `text.replace(/^Here are the summaries based on the provided abstract:\s*/i, "")`:
strip the boilerplate preamble and the whitespace run after it. -/
def stripBoilerplate (t : List Char) : List Char :=
  let boiler := "here are the summaries based on the provided abstract:".toList
  if startsWithCI boiler t then
    (t.drop boiler.length).dropWhile isJsWhitespace
  else t

/-- The lookahead `(?=Long Summary|$)` of the short-summary regex (the `s`
flag is on, the `m` flag is not: `$` is end of input). -/
def lookaheadLS (rest : List Char) : Bool :=
  rest.isEmpty || startsWithCI "long summary".toList rest

/-- The lazy group `(.+?)` before the lookahead: the shortest non-empty
prefix of `rest` after which the lookahead holds (`.` matches every
character under the `s` flag). -/
def lazyGroup (rest : List Char) : Option (List Char) :=
  (List.range rest.length).findSome? (fun k =>
    if lookaheadLS (rest.drop (k + 1)) then some (rest.take (k + 1)) else none)

/-- `\s*(.+?)(?=Long Summary|$)` after the label: the greedy `\s*` consumes
as much whitespace as possible, backtracking one character at a time when
the rest of the pattern fails. -/
def shortTail (rest0 : List Char) : Option (List Char) :=
  let ws := (rest0.takeWhile isJsWhitespace).length
  ((List.range (ws + 1)).map (fun d => ws - d)).findSome?
    (fun j => lazyGroup (rest0.drop j))

/-- `text.match(/Short Summary\s*(.+?)(?=Long Summary|$)/is)`: the capture
group of the leftmost match, scanning start positions left to right. -/
def matchShort (t : List Char) : Option (List Char) :=
  (List.range (t.length + 1)).findSome? (fun i =>
    if startsWithCI "short summary".toList (t.drop i) then
      shortTail (t.drop (i + 13))
    else none)

/-- `\s*(.+)$` after the label: greedy `\s*`, then the greedy group takes
everything left, needing at least one character. -/
def longTail (rest0 : List Char) : Option (List Char) :=
  let ws := (rest0.takeWhile isJsWhitespace).length
  ((List.range (ws + 1)).map (fun d => ws - d)).findSome? (fun j =>
    let gr := rest0.drop j
    if gr.isEmpty then none else some gr)

/-- `text.match(/Long Summary\s*(.+)$/is)`: the capture group of the
leftmost match. -/
def matchLong (t : List Char) : Option (List Char) :=
  (List.range (t.length + 1)).findSome? (fun i =>
    if startsWithCI "long summary".toList (t.drop i) then
      longTail (t.drop (i + 12))
    else none)

/-- `String.prototype.trim`. -/
def jsTrim (t : List Char) : List Char :=
  ((t.dropWhile isJsWhitespace).reverse.dropWhile isJsWhitespace).reverse

/-- `formatSummaries(text, type)` (script.js lines 14-28). -/
def formatSummaries (text : String) (type : String) : String :=
  if text = "" then ""
  else
    let t := stripBoilerplate text.toList
    let sm := matchShort t
    let lm := matchLong t
    if type = "short" ∧ sm.isSome then
      "<strong>Short Summary:</strong> " ++ String.mk (jsTrim (sm.getD []))
    else if type = "long" ∧ lm.isSome then
      String.mk (Char.ofNat 32 :: jsTrim (lm.getD []))
    else String.mk (jsTrim t)

/-- The input of the spec's summary-cleaning test property. -/
def c8Input : String :=
  "Here are the summaries based on the provided abstract: Short Summary: foo. Long Summary: bar."

/-- Claim C8 counterexample: the claimed outputs are not produced. The regex
`Short Summary\s*(.+?)` never consumes the `:` after the label (and `\s*`
matches nothing in front of it), so the colon stays in the capture group;
likewise for the long summary. -/
theorem claim_C8_counterexample :
    ¬ (formatSummaries c8Input "short" = "<strong>Short Summary:</strong> foo." ∧
       formatSummaries c8Input "long" = " bar.") := by
  decide

/-- Claim C8, amended: on the spec's input the short summary is
`<strong>Short Summary:</strong> : foo.` and the long summary is ` : bar.` —
as claimed except that the `:` after each section label is kept in the
extracted text. -/
theorem claim_C8_amended :
    formatSummaries c8Input "short" = "<strong>Short Summary:</strong> : foo." ∧
    formatSummaries c8Input "long" = " : bar." := by
  constructor
  · rfl
  · rfl

/-- A value the `mindmapJson` parameter (or its parsed form) can take:
`null` (absent / JSON null), a string, an object with truthy `nodes` and
`edges` fields (both are arrays, and arrays — empty ones included — are
truthy), or an object without them, consumed by `d3.hierarchy` as-is. -/
inductive MindVal where
  | null
  | str (s : String)
  | graphObj (g : Graph)
  | hierObj (h : HNode)

/-- How a call to `renderMindmap` ends. `proceeds` means control reaches the
D3 rendering stage (line 153 onward) carrying this data; the claims settled
against this model concern only the paths that return before that stage or
throw before it. -/
inductive RenderOutcome where
  | noop
  | caught (msg : String)
  | proceeds (data : MindVal)
  | thrown (msg : String)

/-- Lines 149-151: `if (data.nodes && data.edges) data = convertToHierarchy(data)`.
On parsed `null`, reading `data.nodes` throws a TypeError; on a graph object
with an empty node list, `convertToHierarchy` evaluates `rootNode.id` with
`rootNode === undefined` and throws a TypeError — both outside the catch
block around `JSON.parse`. -/
def renderData : MindVal → RenderOutcome
  | .null => .thrown "TypeError"
  | .graphObj g =>
    match convertToHierarchy g with
    | some h => .proceeds (.hierObj h)
    | none => .thrown "TypeError"
  | v => .proceeds v

/-- `renderMindmap(mindmapJson)` (script.js lines 138-151), parameterized by
the host's `JSON.parse` (`.error` models a thrown SyntaxError): falsy input
returns at once; string input is parsed inside try/catch, a parse error is
logged and swallowed; then the nodes/edges normalization of `renderData`. -/
def renderMindmap (parse : String → Except String MindVal) :
    MindVal → RenderOutcome
  | .null => .noop
  | .str s =>
    if s = "" then .noop
    else
      match parse s with
      | .error e => .caught e
      | .ok v => renderData v
  | v => renderData v

/-- Claim C6: absent (`null`/falsy) mindmap input renders nothing; a string that
fails to parse is caught and logged, and `renderMindmap` returns without any
exception escaping to the caller. -/
theorem claim_C6 (parse : String → Except String MindVal) (s e : String)
    (hs : s ≠ "") (hp : parse s = .error e) :
    renderMindmap parse .null = .noop ∧
    renderMindmap parse (.str s) = .caught e ∧
    ∀ msg : String, renderMindmap parse (.str s) ≠ .thrown msg := by
  refine ⟨rfl, ?_, ?_⟩
  · simp [renderMindmap, hs, hp]
  · intro msg
    simp [renderMindmap, hs, hp]

/-- A `JSON.parse` that always throws (e.g. on input that is not JSON). -/
def failParse : String → Except String MindVal :=
  fun _ => .error "SyntaxError"

theorem claim_C6_witness :
    renderMindmap failParse .null = .noop ∧
    renderMindmap failParse (.str "not json") = .caught "SyntaxError" ∧
    ∀ msg : String, renderMindmap failParse (.str "not json") ≠ .thrown msg :=
  claim_C6 failParse "not json" "SyntaxError" (by decide) rfl

/-- Claim C10: a payload that parses to an object carrying `nodes` and `edges`
fields with an empty node list makes `convertToHierarchy` throw a TypeError
(`rootNode` is `undefined` and `rootNode.id` dereferences it), outside the
catch block around `JSON.parse` — the error escapes `renderMindmap`. The
same happens when such an object is passed directly. -/
theorem claim_C10 (parse : String → Except String MindVal) (s : String)
    (g : Graph) (hs : s ≠ "") (hp : parse s = .ok (.graphObj g))
    (hempty : g.nodes = []) :
    renderMindmap parse (.str s) = .thrown "TypeError" ∧
    renderMindmap parse (.graphObj g) = .thrown "TypeError" := by
  constructor
  · simp [renderMindmap, hs, hp, renderData, convertToHierarchy_none g hempty]
  · simp [renderMindmap, renderData, convertToHierarchy_none g hempty]

/-- The graph object parsed from `"{\x22nodes\x22:[],\x22edges\x22:[]}"`. -/
def emptyNodesGraph : Graph := ⟨[], []⟩

/-- A `JSON.parse` returning the empty-nodes graph object. -/
def emptyGraphParse : String → Except String MindVal :=
  fun _ => .ok (.graphObj emptyNodesGraph)

theorem claim_C10_witness :
    renderMindmap emptyGraphParse (.str "x") = .thrown "TypeError" ∧
    renderMindmap emptyGraphParse (.graphObj emptyNodesGraph) =
      .thrown "TypeError" :=
  claim_C10 emptyGraphParse "x" emptyNodesGraph (by decide) rfl rfl

/-- The key function of the node data join in `update` (line 208):
`d => d.id || (d.id = ++i)`. `d.id` is `undefined` (`none`) the first time a
node is rendered; the fallback `++i` must first read the variable `i` from
the enclosing scopes, modeled by `iVar`; an unbound identifier (`none`)
makes the read throw a ReferenceError. On success the result pairs the key
with the updated counter. -/
def nodeKey (dId : Option Int) (iVar : Option Int) :
    Except String (Int × Option Int) :=
  match dId with
  | some k => .ok (k, iVar)
  | none =>
    match iVar with
    | some v => .ok (v + 1, some (v + 1))
    | none => .error "ReferenceError: i is not defined"

/-- The binding of `i` in the scopes enclosing `update` in script.js: the
script never declares `i` there — the only `i` in the file is the `let` of
the pagination loop, local to `loadPapers` (line 89) — so the identifier is
unbound: `none`. -/
def scriptIVar : Option Int := none

/-- Claim C5, a code bug: On the very first node the join renders (the root, which
has no id yet), the key function reads the undeclared variable `i` and
throws a ReferenceError instead of assigning a fresh stable id; no node is
ever drawn, so no id is assigned at first render, let alone reused. Nodes
that already carried an id would be keyed by it, confirming the intent the
claim describes. -/
theorem claim_C5 :
    nodeKey none scriptIVar = .error "ReferenceError: i is not defined" ∧
    ∀ k : Int, nodeKey (some k) scriptIVar = .ok (k, scriptIVar) :=
  ⟨rfl, fun _ => rfl⟩

/-- A paper record as consumed by `loadPapers`. `published_date` is embedded
as the epoch value `new Date(p.published_date)` evaluates to (the sort
comparator only uses that number). -/
structure Paper where
  id : Nat
  title : String
  authors : String
  published_date : Int
  summary_short : String
deriving DecidableEq, Repr

/-- ASCII lowering of a string (`String.prototype.toLowerCase`, restricted
to the character range the model exercises). -/
def lowerStr (s : String) : String :=
  String.mk (s.toList.map Char.toLower)

/-- `String.prototype.includes`: `needle` occurs contiguously in `hay`. -/
def isSubstr (needle : List Char) : List Char → Bool
  | [] => needle.isEmpty
  | c :: t => needle.isPrefixOf (c :: t) || isSubstr needle t

/-- The sort comparator `(a, b) => a.title.localeCompare(b.title)`, as the
keep-in-order relation of a stable sort; the default-locale collation is
modeled as code-point order. -/
def titleLe (a b : Paper) : Bool :=
  decide (a.title ≤ b.title)

/-- The sort comparator `(a, b) => new Date(b.published_date) - new Date(a.published_date)`
(descending by date), as the keep-in-order relation of a stable sort. -/
def dateDescLe (a b : Paper) : Bool :=
  decide (b.published_date ≤ a.published_date)

/-- The client-side pipeline of `loadPapers` (script.js lines 60-84) applied
to one fetched page `papers = data.papers`: lowercase the live search field,
filter titles by substring when the term is non-empty (falsy check), then
sort — by title when the select holds `"title"`, else by date descending.
JavaScript `Array.prototype.sort` is stable; it is modeled by `mergeSort`.
The cards are then rendered in list order. -/
def loadPapersView (papers : List Paper) (searchRaw sortValue : String) :
    List Paper :=
  let searchTerm := lowerStr searchRaw
  let filtered :=
    if searchTerm = "" then papers
    else papers.filter (fun p => isSubstr searchTerm.toList (lowerStr p.title).toList)
  if sortValue = "title" then filtered.mergeSort titleLe
  else filtered.mergeSort dateDescLe

theorem isSubstr_nil_needle (hay : List Char) : isSubstr [] hay = true := by
  cases hay with
  | nil => rfl
  | cons c t => simp [isSubstr, List.isPrefixOf]

theorem isSubstr_iff (needle hay : List Char) :
    isSubstr needle hay = true ↔ needle <:+: hay := by
  induction hay with
  | nil =>
    simp only [isSubstr, List.infix_nil, List.isEmpty_iff]
  | cons c t ih =>
    simp only [isSubstr, Bool.or_eq_true, ih, List.infix_cons_iff]
    rw [ List.isPrefixOf_iff_prefix]

theorem filter_of_empty_term (papers : List Paper) (searchRaw : String)
    (h : lowerStr searchRaw = "") :
    papers.filter
        (fun p => isSubstr (lowerStr searchRaw).toList (lowerStr p.title).toList) =
      papers := by
  apply List.filter_eq_self.mpr
  intro p _
  rw [h]
  exact isSubstr_nil_needle _

theorem loadPapersView_perm (papers : List Paper) (searchRaw sortValue : String) :
    (loadPapersView papers searchRaw sortValue).Perm
      (papers.filter
        (fun p => isSubstr (lowerStr searchRaw).toList (lowerStr p.title).toList)) := by
  unfold loadPapersView
  by_cases hterm : lowerStr searchRaw = ""
  · rw [filter_of_empty_term papers searchRaw hterm]
    by_cases hsort : sortValue = "title"
    · simp only [hterm, if_pos rfl, if_pos hsort]
      exact List.mergeSort_perm papers titleLe
    · simp only [hterm, if_pos rfl, if_neg hsort]
      exact List.mergeSort_perm papers dateDescLe
  · by_cases hsort : sortValue = "title"
    · simp only [if_neg hterm, if_pos hsort]
      exact List.mergeSort_perm _ titleLe
    · simp only [if_neg hterm, if_neg hsort]
      exact List.mergeSort_perm _ dateDescLe

theorem titleLe_trans (a b c : Paper) (h1 : titleLe a b = true)
    (h2 : titleLe b c = true) : titleLe a c = true := by
  exact decide_eq_true (le_trans (of_decide_eq_true h1) (of_decide_eq_true h2))

theorem titleLe_total (a b : Paper) : (titleLe a b || titleLe b a) = true := by
  rcases le_total a.title b.title with h | h
  · simp [titleLe, h]
  · simp [titleLe, h]

theorem dateDescLe_trans (a b c : Paper) (h1 : dateDescLe a b = true)
    (h2 : dateDescLe b c = true) : dateDescLe a c = true := by
  exact decide_eq_true (le_trans (of_decide_eq_true h2) (of_decide_eq_true h1))

theorem dateDescLe_total (a b : Paper) :
    (dateDescLe a b || dateDescLe b a) = true := by
  rcases le_total b.published_date a.published_date with h | h
  · simp [dateDescLe, h]
  · simp [dateDescLe, h]

/-- Claim C9. The rendered list holds exactly the fetched page's papers
whose (lowercased) title contains the lowercased search term as a substring
— as a permutation-exact multiset — ordered by title when the title sort is
selected and by published date descending otherwise. -/
theorem claim_C9 (papers : List Paper) (searchRaw sortValue : String) :
    (∀ p : Paper, p ∈ loadPapersView papers searchRaw sortValue ↔
      p ∈ papers ∧ (lowerStr searchRaw).toList <:+: (lowerStr p.title).toList) ∧
    (loadPapersView papers searchRaw sortValue).Perm
      (papers.filter
        (fun p => isSubstr (lowerStr searchRaw).toList (lowerStr p.title).toList)) ∧
    (sortValue = "title" →
      (loadPapersView papers searchRaw sortValue).Sorted
        (fun a b => a.title ≤ b.title)) ∧
    (sortValue ≠ "title" →
      (loadPapersView papers searchRaw sortValue).Sorted
        (fun a b => b.published_date ≤ a.published_date)) := by
  refine ⟨?_, loadPapersView_perm papers searchRaw sortValue, ?_, ?_⟩
  · intro p
    rw [(loadPapersView_perm papers searchRaw sortValue).mem_iff, List.mem_filter,
      isSubstr_iff]
  · intro hsort
    have : loadPapersView papers searchRaw sortValue =
        (if lowerStr searchRaw = "" then papers
          else papers.filter
            (fun p => isSubstr (lowerStr searchRaw).toList (lowerStr p.title).toList)).mergeSort
          titleLe := by
      unfold loadPapersView
      rw [if_pos hsort]
    rw [this]
    exact (List.sorted_mergeSort titleLe_trans titleLe_total _).imp
      (fun h => of_decide_eq_true h)
  · intro hsort
    have : loadPapersView papers searchRaw sortValue =
        (if lowerStr searchRaw = "" then papers
          else papers.filter
            (fun p => isSubstr (lowerStr searchRaw).toList (lowerStr p.title).toList)).mergeSort
          dateDescLe := by
      unfold loadPapersView
      rw [if_neg hsort]
    rw [this]
    exact (List.sorted_mergeSort dateDescLe_trans dateDescLe_total _).imp
      (fun h => of_decide_eq_true h)

/-- A two-paper fetched page for the witness. -/
def wPapers : List Paper :=
  [⟨1, "Beta study", "x", 5, "s"⟩, ⟨2, "Alpha survey", "y", 9, "s"⟩]

/-- The first paper of `wPapers`. -/
def wPapersHead : Paper := ⟨1, "Beta study", "x", 5, "s"⟩

theorem claim_C9_witness :
    ((wPapersHead ∈ loadPapersView wPapers "a" "title" ↔
      wPapersHead ∈ wPapers ∧
        (lowerStr "a").toList <:+: (lowerStr wPapersHead.title).toList) ∧
     (loadPapersView wPapers "a" "title").Sorted
       (fun a b => a.title ≤ b.title)) ∧
    (loadPapersView wPapers "" "date").Sorted
      (fun a b => b.published_date ≤ a.published_date) :=
  ⟨⟨(claim_C9 wPapers "a" "title").1 wPapersHead,
    (claim_C9 wPapers "a" "title").2.2.1 rfl⟩,
   (claim_C9 wPapers "" "date").2.2.2 (by decide)⟩

/-- A two-node graph with one edge, for the C1 witness. -/
def c1Graph : Graph := ⟨[⟨"A", "A"⟩, ⟨"B", "B"⟩], [⟨"A", "B"⟩]⟩

theorem claim_C1_witness :
    c1Graph.nodes ≠ [] ∧
    ∃ r : GNode,
      convertToHierarchy c1Graph = some (build c1Graph c1Graph.nodes.length r.id) ∧
      ((∃ k : Nat, ∃ hk : k < c1Graph.nodes.length,
          r = c1Graph.nodes.get ⟨k, hk⟩ ∧ r.id ∉ targets c1Graph ∧
          ∀ j : Nat, (hj : j < k) →
            (c1Graph.nodes.get ⟨j, Nat.lt_trans hj hk⟩).id ∈ targets c1Graph) ∨
        ((∀ n ∈ c1Graph.nodes, n.id ∈ targets c1Graph) ∧
          c1Graph.nodes.head? = some r)) :=
  ⟨by decide, claim_C1 c1Graph (by decide)⟩
